import Mathlib

/-
Verification of the Scalable Bloom Filter series logic (scalable.go) against
its natural-language specification.

Embedding conventions:
- Go float64 arithmetic is modelled with exact rationals (ℚ); `math.Pow(r, n)`
  at a natural exponent becomes `r ^ n`.
- `Rat.mul` is `@[irreducible]` in this toolchain, which would block concrete
  evaluation of states; the embedding therefore multiplies rates with `qmul`,
  which `qmul_eq_mul` proves equal to ordinary rational multiplication.
- Go byte slices (`[]byte`) are modelled as `List Nat`.
- The PartitionedBloomFilter collaborator is not part of the given source
  (scalable.go only calls it); it is modelled from the spec's Partitioned
  Filter Contract (spec §6), with the membership state made explicit as the
  list of added elements.
- Go code that indexes `s.filters[len-1]` would panic on an empty slice; the
  embedding returns `Option` there, so "the access never fails" is stated as
  "the result is `some _`".
-/

/-- Rational multiplication written through `mkRat`, so that it reduces on
concrete inputs; `qmul_eq_mul` below shows it is exactly `a * b`. -/
def qmul (a b : ℚ) : ℚ := mkRat (a.num * b.num) (a.den * b.den)

/-- Modelled from the spec: the Partitioned Filter Contract (spec §6).
The filter's bit-array internals are out of scope; the model keeps the
construction parameters and the exact list of added elements, which is enough
to satisfy the contract: zero false negatives, false positives bounded by the
construction-time rate (the model has none), a capacity derived from the size
hint, and occupancy estimates in [0, 1]. -/
structure PartitionedBloomFilter where
  hint : Nat
  fpRate : ℚ
  elems : List (List Nat)
  deriving Repr, DecidableEq, Inhabited

/-- Modelled from the spec: `construct(sizeHint, falsePositiveRate)` of the
Partitioned Filter Contract — a fresh filter with no elements added. -/
def NewPartitionedBloomFilter (hint : Nat) (fpRate : ℚ) : PartitionedBloomFilter :=
  { hint := hint, fpRate := fpRate, elems := [] }

/-- Modelled from the spec: `capacity()` — the filter's designed element
capacity, derived from the size hint it was constructed with. -/
def PartitionedBloomFilter.Capacity (f : PartitionedBloomFilter) : Nat :=
  f.hint

/-- Modelled from the spec: `hashCount()` — an integer guaranteed identical
across all filters built with consistent parameters; modelled as a function of
the shared size hint. -/
def PartitionedBloomFilter.K (f : PartitionedBloomFilter) : Nat :=
  f.hint + 1

/-- Modelled from the spec: `fillRatio()` — fraction (0–1) of bits currently
set; modelled as the element count clamped to capacity over the capacity. -/
def PartitionedBloomFilter.FillRatio (f : PartitionedBloomFilter) : ℚ :=
  mkRat (min f.elems.length (max f.hint 1) : Nat) (max f.hint 1)

/-- Modelled from the spec: `estimatedFillRatio()` — the analytic occupancy
estimate used to decide growth; the spec fixes no formula, so the model reuses
the clamped occupancy. -/
def PartitionedBloomFilter.EstimatedFillRatio (f : PartitionedBloomFilter) : ℚ :=
  mkRat (min f.elems.length (max f.hint 1) : Nat) (max f.hint 1)

/-- Modelled from the spec: `test(element)` — zero false negatives for elements
previously added; possible false positives bounded by the construction-time
rate (the exact-membership model has none, which satisfies the bound). -/
def PartitionedBloomFilter.Test (f : PartitionedBloomFilter) (data : List Nat) : Bool :=
  decide (data ∈ f.elems)

/-- Modelled from the spec: `add(element)` — inserts the element. -/
def PartitionedBloomFilter.Add (f : PartitionedBloomFilter) (data : List Nat) : PartitionedBloomFilter :=
  { f with elems := data :: f.elems }

/-- Modelled from the spec: the package-level fill-threshold constant
`fillRatio` that construction assigns to the field `p` (it is defined outside
the given source file; the spec does not fix its numeric value, so 1/2 stands
in for it — no claim depends on the value). -/
def fillRatio : ℚ := mkRat 1 2

/-- ScalableBloomFilter (scalable.go lines 36–42): the series of partitioned
filters plus the scalar growth parameters. -/
structure ScalableBloomFilter where
  filters : List PartitionedBloomFilter
  r : ℚ
  fp : ℚ
  p : ℚ
  hint : Nat
  deriving Repr, DecidableEq, Inhabited

/-- addFilter (scalable.go lines 140–143): append a fresh partitioned filter
with rate `s.fp * s.r ^ len(s.filters)` (multiplication via `qmul`, see
`qmul_eq_mul`). -/
def ScalableBloomFilter.addFilter (s : ScalableBloomFilter) : ScalableBloomFilter :=
  { s with filters :=
      s.filters ++ [NewPartitionedBloomFilter s.hint (qmul s.fp (s.r ^ s.filters.length))] }

/-- NewScalableBloomFilter (scalable.go lines 48–59): build the record with an
empty filter list and the package fill-ratio constant, then add one filter. -/
def NewScalableBloomFilter (hint : Nat) (fpRate r : ℚ) : ScalableBloomFilter :=
  ScalableBloomFilter.addFilter
    { filters := [], r := r, fp := fpRate, p := fillRatio, hint := hint }

/-- NewDefaultScalableBloomFilter (scalable.go lines 63–65). -/
def NewDefaultScalableBloomFilter (fpRate : ℚ) : ScalableBloomFilter :=
  NewScalableBloomFilter 10000 fpRate (mkRat 4 5)

/-- Capacity (scalable.go lines 69–75): running sum of the filters' capacities,
mirroring the loop. -/
def ScalableBloomFilter.Capacity (s : ScalableBloomFilter) : Nat :=
  s.filters.foldl (fun capacity bf => capacity + bf.Capacity) 0

/-- K (scalable.go lines 78–81): `s.filters[0].K()`; the index-0 access is
modelled with `head?`, so an empty series gives `none` where Go panics. -/
def ScalableBloomFilter.K (s : ScalableBloomFilter) : Option Nat :=
  s.filters.head?.map (fun f => f.K)

/-- FillRatio (scalable.go lines 84–90): running sum of the filters' fill
ratios divided by the number of filters, mirroring the loop. -/
def ScalableBloomFilter.FillRatio (s : ScalableBloomFilter) : ℚ :=
  (s.filters.foldl (fun sum filter => sum + filter.FillRatio) 0) / (s.filters.length : ℚ)

/-- Test (scalable.go lines 96–105): return true on the first filter that
reports membership, false if none does; the early-return loop is `List.any`. -/
def ScalableBloomFilter.Test (s : ScalableBloomFilter) (data : List Nat) : Bool :=
  s.filters.any (fun bf => bf.Test data)

/-- Helper for Add: `s.filters[idx].Add(data)` with `idx = len-1` — replace the
last element of the list by its updated version (identity on the empty list,
which Add never passes). -/
def setLastAdded (l : List PartitionedBloomFilter) (data : List Nat) : List PartitionedBloomFilter :=
  match l.getLast? with
  | none => l
  | some last => l.dropLast ++ [last.Add data]

/-- Add (scalable.go lines 109–120): look at the last filter; if its estimated
fill ratio has reached `s.p`, append a new filter; then insert into the (new)
last filter. Go indexes `s.filters[len-1]`, which panics on an empty slice:
the embedding returns `none` there. -/
def ScalableBloomFilter.Add (s : ScalableBloomFilter) (data : List Nat) : Option ScalableBloomFilter :=
  match s.filters.getLast? with
  | none => none
  | some last =>
    let s1 := if last.EstimatedFillRatio ≥ s.p then s.addFilter else s
    some { s1 with filters := setLastAdded s1.filters data }

/-- TestAndAdd (scalable.go lines 124–128): remember the Test result, then Add,
then return the remembered result together with the updated state. -/
def ScalableBloomFilter.TestAndAdd (s : ScalableBloomFilter) (data : List Nat) :
    Option (Bool × ScalableBloomFilter) :=
  let member := s.Test data
  (s.Add data).map (fun s2 => (member, s2))

/-- Reset (scalable.go lines 132–136): replace the filter list by a fresh empty
one and add a single filter. -/
def ScalableBloomFilter.Reset (s : ScalableBloomFilter) : ScalableBloomFilter :=
  ScalableBloomFilter.addFilter { s with filters := [] }

/-- Modelled from the spec: the constraints `sizeHint > 0`,
`0 < targetFpRate < 1`, `0 < tighteningRatio < 1` on construction parameters
(spec §4.1 construct, §7); used only to compare the spec's failure semantics
with the code's actual behaviour. -/
def validParams (hint : Nat) (fp r : ℚ) : Bool :=
  decide (0 < hint) && decide (0 < fp) && decide (fp < 1) && decide (0 < r) && decide (r < 1)

/-- The public operations of the series, for reachability statements. `test`
is read-only, `add`/`testAndAdd` mutate, `reset` reinitializes. -/
inductive Op where
  | add (data : List Nat)
  | testAndAdd (data : List Nat)
  | test (data : List Nat)
  | reset
  deriving Repr, DecidableEq

/-- One public operation applied to a series state. -/
def execOp (s : ScalableBloomFilter) : Op → Option ScalableBloomFilter
  | Op.add d => s.Add d
  | Op.testAndAdd d => (s.TestAndAdd d).map Prod.snd
  | Op.test _ => some s
  | Op.reset => some s.Reset

/-- A sequence of public operations applied to a series state. -/
def execOps (s : ScalableBloomFilter) : List Op → Option ScalableBloomFilter
  | [] => some s
  | op :: ops => (execOp s op).bind (fun s1 => execOps s1 ops)

/-- A state reachable from `NewScalableBloomFilter hint fp r` by some sequence
of public operations. -/
def ReachableFrom (hint : Nat) (fp r : ℚ) (s : ScalableBloomFilter) : Prop :=
  ∃ ops : List Op, execOps (NewScalableBloomFilter hint fp r) ops = some s

/-- The invariant every reachable series state satisfies: the scalar
configuration fields are the construction parameters, the filter list is
nonempty, the i-th filter was built with rate `fp * r ^ i`, and every filter
was built with the construction size hint. -/
structure SeriesInv (hint : Nat) (fp r : ℚ) (s : ScalableBloomFilter) : Prop where
  hint_eq : s.hint = hint
  fp_eq : s.fp = fp
  r_eq : s.r = r
  p_eq : s.p = fillRatio
  ne : s.filters ≠ []
  rates : ∀ i f, s.filters[i]? = some f → f.fpRate = fp * r ^ i
  hints : ∀ f ∈ s.filters, f.hint = hint

/-- Concrete series used to exercise the theorems: size hint 1 (so growth
triggers after a single insertion), rate 1/100, ratio 4/5. -/
def sEx : ScalableBloomFilter := NewScalableBloomFilter 1 (mkRat 1 100) (mkRat 4 5)

/-- The concrete series after adding one element. -/
def sExA : ScalableBloomFilter := (sEx.Add [1]).getD default

/-- The concrete series after further operations, none of them a reset. -/
def sExB : ScalableBloomFilter :=
  (execOps sExA [Op.add [2], Op.testAndAdd [3], Op.test [9]]).getD default

/-- The concrete series after two insertions (two filters by then). -/
def sEx2 : ScalableBloomFilter := (execOps sEx [Op.add [1], Op.add [2]]).getD default

/-- The last (and only) filter of `sExA`. -/
def xExA : PartitionedBloomFilter := sExA.filters.getLastD default

/-- qmul is ordinary rational multiplication. -/
theorem qmul_eq_mul (a b : ℚ) : qmul a b = a * b := (Rat.mul_eq_mkRat a b).symm

/-- Updating the last element of a nonempty list. -/
theorem setLastAdded_concat (xs : List PartitionedBloomFilter) (x : PartitionedBloomFilter)
    (d : List Nat) : setLastAdded (xs ++ [x]) d = xs ++ [x.Add d] := by
  simp [setLastAdded, List.getLast?_concat, List.dropLast_concat]

/-- A nonempty list is some list with a last element. -/
theorem exists_concat_of_ne_nil (l : List PartitionedBloomFilter) (h : l ≠ []) :
    ∃ xs x, l = xs ++ [x] := by
  rcases List.eq_nil_or_concat l with h0 | ⟨xs, x, h0⟩
  · exact absurd h0 h
  · exact ⟨xs, x, by simpa using h0⟩

/-- The capacity loop is a sum over the filters. -/
theorem foldl_capacity_eq (l : List PartitionedBloomFilter) (n : Nat) :
    l.foldl (fun capacity bf => capacity + bf.Capacity) n
      = n + (l.map PartitionedBloomFilter.Capacity).sum := by
  induction l generalizing n with
  | nil => simp
  | cons x xs ih => simp [ih, Nat.add_assoc]

/-- Series capacity is the sum of the filters' capacities. -/
theorem capacity_eq_sum (s : ScalableBloomFilter) :
    s.Capacity = (s.filters.map PartitionedBloomFilter.Capacity).sum := by
  simpa using foldl_capacity_eq s.filters 0

/-- The fill-ratio loop is a sum over the filters. -/
theorem foldl_fillRatio_eq (l : List PartitionedBloomFilter) (q : ℚ) :
    l.foldl (fun sum filter => sum + filter.FillRatio) q
      = q + (l.map PartitionedBloomFilter.FillRatio).sum := by
  induction l generalizing q with
  | nil => simp
  | cons x xs ih => simp [ih, add_assoc]

/-- Adding an element to a partitioned filter makes it test positive. -/
theorem pbf_test_add_self (f : PartitionedBloomFilter) (d : List Nat) :
    (f.Add d).Test d = true := by
  simp [PartitionedBloomFilter.Test, PartitionedBloomFilter.Add]

/-- Adding an element to a partitioned filter keeps earlier positives. -/
theorem pbf_test_add_mono (f : PartitionedBloomFilter) (d e : List Nat)
    (h : f.Test e = true) : (f.Add d).Test e = true := by
  simp only [PartitionedBloomFilter.Test, PartitionedBloomFilter.Add, decide_eq_true_eq] at *
  exact List.mem_cons_of_mem _ h

/-- Adding an element changes nothing but the element list. -/
theorem pbf_add_frame (f : PartitionedBloomFilter) (d : List Nat) :
    (f.Add d).hint = f.hint ∧ (f.Add d).fpRate = f.fpRate ∧ (f.Add d).Capacity = f.Capacity := by
  simp [PartitionedBloomFilter.Add, PartitionedBloomFilter.Capacity]

/-- Series membership is membership in some filter. -/
theorem test_iff_exists (s : ScalableBloomFilter) (d : List Nat) :
    s.Test d = true ↔ ∃ f ∈ s.filters, f.Test d = true := by
  simp [ScalableBloomFilter.Test, List.any_eq_true]

/-- Add on a series whose last filter has reached the threshold: a fresh filter
is appended and receives the element. -/
theorem add_eq_grow (s : ScalableBloomFilter) (xs : List PartitionedBloomFilter)
    (x : PartitionedBloomFilter) (d : List Nat) (hfil : s.filters = xs ++ [x])
    (hge : x.EstimatedFillRatio ≥ s.p) :
    s.Add d = some { s with filters :=
      (xs ++ [x]) ++ [(NewPartitionedBloomFilter s.hint (qmul s.fp (s.r ^ (xs ++ [x]).length))).Add d] } := by
  simp [ScalableBloomFilter.Add, hfil, List.getLast?_concat, hge,
    ScalableBloomFilter.addFilter]
  simpa using setLastAdded_concat (xs ++ [x])
    (NewPartitionedBloomFilter s.hint (qmul s.fp (s.r ^ (xs ++ [x]).length))) d

/-- Add on a series whose last filter is below the threshold: the element goes
into the existing last filter and no filter is appended. -/
theorem add_eq_nogrow (s : ScalableBloomFilter) (xs : List PartitionedBloomFilter)
    (x : PartitionedBloomFilter) (d : List Nat) (hfil : s.filters = xs ++ [x])
    (hlt : ¬ (x.EstimatedFillRatio ≥ s.p)) :
    s.Add d = some { s with filters := xs ++ [x.Add d] } := by
  simp [ScalableBloomFilter.Add, hfil, List.getLast?_concat, hlt, setLastAdded_concat]

/-- Appending a filter with the next geometric rate preserves the rate law. -/
theorem rates_append (fp r : ℚ) (L : List PartitionedBloomFilter) (y : PartitionedBloomFilter)
    (hL : ∀ i f, L[i]? = some f → f.fpRate = fp * r ^ i)
    (hy : y.fpRate = fp * r ^ L.length) :
    ∀ i f, (L ++ [y])[i]? = some f → f.fpRate = fp * r ^ i := by
  intro i f h
  by_cases hi : i < L.length
  · rw [List.getElem?_append_left hi] at h
    exact hL i f h
  · push_neg at hi
    rw [List.getElem?_append_right hi] at h
    rcases Nat.lt_or_ge (i - L.length) 1 with h1 | h1
    · have h0 : i - L.length = 0 := Nat.lt_one_iff.mp h1
      have hieq : i = L.length := by omega
      rw [h0] at h
      simp only [List.getElem?_cons_zero, Option.some.injEq] at h
      rw [← h, hieq]
      exact hy
    · rw [List.getElem?_eq_none (by simpa using h1)] at h
      exact absurd h (by simp)

/-- Restricting the rate law to a prefix. -/
theorem rates_front (fp r : ℚ) (L : List PartitionedBloomFilter) (y : PartitionedBloomFilter)
    (hL : ∀ i f, (L ++ [y])[i]? = some f → f.fpRate = fp * r ^ i) :
    ∀ i f, L[i]? = some f → f.fpRate = fp * r ^ i := by
  intro i f h
  have hi : i < L.length := (List.getElem?_eq_some.mp h).1
  exact hL i f (by rw [List.getElem?_append_left hi]; exact h)

/-- addFilter preserves the invariant. -/
theorem inv_addFilter (hint : Nat) (fp r : ℚ) (s : ScalableBloomFilter)
    (hs : s.hint = hint) (hfp : s.fp = fp) (hr : s.r = r) (hp : s.p = fillRatio)
    (hrates : ∀ i f, s.filters[i]? = some f → f.fpRate = fp * r ^ i)
    (hhints : ∀ f ∈ s.filters, f.hint = hint) :
    SeriesInv hint fp r s.addFilter := by
  constructor
  · exact hs
  · exact hfp
  · exact hr
  · exact hp
  · simp [ScalableBloomFilter.addFilter]
  · simp only [ScalableBloomFilter.addFilter]
    exact rates_append fp r s.filters _ hrates
      (by simp [NewPartitionedBloomFilter, qmul_eq_mul, hfp, hr])
  · simp only [ScalableBloomFilter.addFilter]
    intro f hf
    rcases List.mem_append.mp hf with hf | hf
    · exact hhints f hf
    · simp only [List.mem_singleton] at hf
      rw [hf, NewPartitionedBloomFilter, hs]

/-- The freshly constructed series satisfies the invariant. -/
theorem inv_new (hint : Nat) (fp r : ℚ) :
    SeriesInv hint fp r (NewScalableBloomFilter hint fp r) := by
  apply inv_addFilter <;> simp

/-- Reset preserves the invariant. -/
theorem inv_reset (hint : Nat) (fp r : ℚ) (s : ScalableBloomFilter)
    (hinv : SeriesInv hint fp r s) : SeriesInv hint fp r s.Reset := by
  apply inv_addFilter <;> simp [hinv.hint_eq, hinv.fp_eq, hinv.r_eq, hinv.p_eq]

/-- Add preserves the invariant. -/
theorem inv_add (hint : Nat) (fp r : ℚ) (s s2 : ScalableBloomFilter) (d : List Nat)
    (hinv : SeriesInv hint fp r s) (hadd : s.Add d = some s2) :
    SeriesInv hint fp r s2 := by
  obtain ⟨xs, x, hfil⟩ := exists_concat_of_ne_nil s.filters hinv.ne
  by_cases hge : x.EstimatedFillRatio ≥ s.p
  · rw [add_eq_grow s xs x d hfil hge] at hadd
    obtain rfl := Option.some.injEq _ _ ▸ hadd.symm
    constructor
    · exact hinv.hint_eq
    · exact hinv.fp_eq
    · exact hinv.r_eq
    · exact hinv.p_eq
    · simp
    · refine rates_append fp r (xs ++ [x]) _ (hfil ▸ hinv.rates) ?_
      simp [PartitionedBloomFilter.Add, NewPartitionedBloomFilter, qmul_eq_mul,
        hinv.fp_eq, hinv.r_eq]
    · intro f hf
      simp only [List.append_assoc, List.mem_append, List.mem_singleton] at hf
      rcases hf with hf | hf | hf
      · exact hinv.hints f (by rw [hfil]; exact List.mem_append.mpr (Or.inl hf))
      · exact hinv.hints f (by rw [hfil]; exact List.mem_append.mpr (Or.inr (by simp [hf])))
      · rw [hf]
        simpa [PartitionedBloomFilter.Add, NewPartitionedBloomFilter] using hinv.hint_eq
  · rw [add_eq_nogrow s xs x d hfil hge] at hadd
    obtain rfl := Option.some.injEq _ _ ▸ hadd.symm
    constructor
    · exact hinv.hint_eq
    · exact hinv.fp_eq
    · exact hinv.r_eq
    · exact hinv.p_eq
    · simp
    · refine rates_append fp r xs (x.Add d) (rates_front fp r xs x (hfil ▸ hinv.rates)) ?_
      have hx : x.fpRate = fp * r ^ xs.length :=
        (hfil ▸ hinv.rates) xs.length x (List.getElem?_concat_length xs x)
      simpa [PartitionedBloomFilter.Add] using hx
    · intro f hf
      simp only [List.mem_append, List.mem_singleton] at hf
      rcases hf with hf | hf
      · exact hinv.hints f (by rw [hfil]; exact List.mem_append.mpr (Or.inl hf))
      · rw [hf]
        have := hinv.hints x (by rw [hfil]; exact List.mem_append.mpr (Or.inr (by simp)))
        simpa [PartitionedBloomFilter.Add] using this

/-- Executing the testAndAdd operation is executing Add on the state. -/
theorem execOp_testAndAdd (s : ScalableBloomFilter) (d : List Nat) :
    execOp s (Op.testAndAdd d) = s.Add d := by
  simp [execOp, ScalableBloomFilter.TestAndAdd, Option.map_map]

/-- Every public operation preserves the invariant. -/
theorem inv_execOp (hint : Nat) (fp r : ℚ) (s s2 : ScalableBloomFilter) (op : Op)
    (hinv : SeriesInv hint fp r s) (hex : execOp s op = some s2) :
    SeriesInv hint fp r s2 := by
  cases op with
  | add d => exact inv_add hint fp r s s2 d hinv hex
  | testAndAdd d =>
    rw [execOp_testAndAdd] at hex
    exact inv_add hint fp r s s2 d hinv hex
  | test d =>
    simp only [execOp, Option.some.injEq] at hex
    exact hex ▸ hinv
  | reset =>
    simp only [execOp, Option.some.injEq] at hex
    exact hex ▸ inv_reset hint fp r s hinv

/-- Every sequence of public operations preserves the invariant. -/
theorem inv_execOps (hint : Nat) (fp r : ℚ) (ops : List Op) (s s2 : ScalableBloomFilter)
    (hinv : SeriesInv hint fp r s) (hex : execOps s ops = some s2) :
    SeriesInv hint fp r s2 := by
  induction ops generalizing s with
  | nil =>
    simp only [execOps, Option.some.injEq] at hex
    exact hex ▸ hinv
  | cons op ops ih =>
    simp only [execOps, Option.bind_eq_bind] at hex
    obtain ⟨s1, h1, h2⟩ := Option.bind_eq_some.mp hex
    exact ih s1 (inv_execOp hint fp r s s1 op hinv h1) h2

/-- Every reachable state satisfies the invariant. -/
theorem reachable_inv (hint : Nat) (fp r : ℚ) (s : ScalableBloomFilter)
    (h : ReachableFrom hint fp r s) : SeriesInv hint fp r s := by
  obtain ⟨ops, hops⟩ := h
  exact inv_execOps hint fp r ops _ s (inv_new hint fp r) hops

/-- Add only succeeds on a nonempty filter list. -/
theorem add_some_ne_nil (s s2 : ScalableBloomFilter) (d : List Nat)
    (h : s.Add d = some s2) : s.filters ≠ [] := by
  intro hnil
  simp [ScalableBloomFilter.Add, hnil] at h

/-- Add never changes the scalar configuration fields. -/
theorem add_frame (s s2 : ScalableBloomFilter) (d : List Nat) (h : s.Add d = some s2) :
    s2.r = s.r ∧ s2.fp = s.fp ∧ s2.p = s.p ∧ s2.hint = s.hint := by
  obtain ⟨xs, x, hfil⟩ := exists_concat_of_ne_nil s.filters (add_some_ne_nil s s2 d h)
  by_cases hge : x.EstimatedFillRatio ≥ s.p
  · rw [add_eq_grow s xs x d hfil hge] at h
    obtain rfl := Option.some.injEq _ _ ▸ h.symm
    simp
  · rw [add_eq_nogrow s xs x d hfil hge] at h
    obtain rfl := Option.some.injEq _ _ ▸ h.symm
    simp

/-- A successful Add leaves the added element testing positive. -/
theorem test_add_self (s s2 : ScalableBloomFilter) (e : List Nat)
    (hadd : s.Add e = some s2) : s2.Test e = true := by
  obtain ⟨xs, x, hfil⟩ := exists_concat_of_ne_nil s.filters (add_some_ne_nil s s2 e hadd)
  by_cases hge : x.EstimatedFillRatio ≥ s.p
  · rw [add_eq_grow s xs x e hfil hge] at hadd
    obtain rfl := Option.some.injEq _ _ ▸ hadd.symm
    simp [ScalableBloomFilter.Test, List.any_append, pbf_test_add_self]
  · rw [add_eq_nogrow s xs x e hfil hge] at hadd
    obtain rfl := Option.some.injEq _ _ ▸ hadd.symm
    simp [ScalableBloomFilter.Test, List.any_append, pbf_test_add_self]

/-- A successful Add preserves every earlier positive test. -/
theorem test_preserved_add (s s2 : ScalableBloomFilter) (d e : List Nat)
    (hadd : s.Add d = some s2) (h : s.Test e = true) : s2.Test e = true := by
  obtain ⟨xs, x, hfil⟩ := exists_concat_of_ne_nil s.filters (add_some_ne_nil s s2 d hadd)
  rw [ScalableBloomFilter.Test, hfil, List.any_append] at h
  by_cases hge : x.EstimatedFillRatio ≥ s.p
  · rw [add_eq_grow s xs x d hfil hge] at hadd
    obtain rfl := Option.some.injEq _ _ ▸ hadd.symm
    simp only [ScalableBloomFilter.Test, List.any_append, Bool.or_eq_true] at h ⊢
    tauto
  · rw [add_eq_nogrow s xs x d hfil hge] at hadd
    obtain rfl := Option.some.injEq _ _ ▸ hadd.symm
    simp only [ScalableBloomFilter.Test, List.any_append, Bool.or_eq_true] at h ⊢
    rcases h with h | h
    · exact Or.inl h
    · simp only [List.any_cons, List.any_nil, Bool.or_false] at h ⊢
      exact Or.inr (pbf_test_add_mono x d e h)

/-- A non-reset operation preserves every earlier positive test. -/
theorem test_preserved_execOp (s s2 : ScalableBloomFilter) (op : Op) (e : List Nat)
    (hop : op ≠ Op.reset) (hex : execOp s op = some s2) (h : s.Test e = true) :
    s2.Test e = true := by
  cases op with
  | add d => exact test_preserved_add s s2 d e hex h
  | testAndAdd d =>
    rw [execOp_testAndAdd] at hex
    exact test_preserved_add s s2 d e hex h
  | test d =>
    simp only [execOp, Option.some.injEq] at hex
    exact hex ▸ h
  | reset => exact absurd rfl hop

/-- A sequence of non-reset operations preserves every earlier positive test. -/
theorem test_preserved_execOps (ops : List Op) : ∀ (s s2 : ScalableBloomFilter) (e : List Nat),
    (∀ op ∈ ops, op ≠ Op.reset) → execOps s ops = some s2 → s.Test e = true →
      s2.Test e = true := by
  induction ops with
  | nil =>
    intro s s2 e _ hex h
    simp only [execOps, Option.some.injEq] at hex
    exact hex ▸ h
  | cons op ops ih =>
    intro s s2 e hops hex h
    simp only [execOps, Option.bind_eq_bind] at hex
    obtain ⟨s1, h1, h2⟩ := Option.bind_eq_some.mp hex
    exact ih s1 s2 e (fun o ho => hops o (List.mem_cons_of_mem op ho)) h2
      (test_preserved_execOp s s1 op e (hops op (List.mem_cons_self op ops)) h1 h)

/-- C1: for every element e and every series state, once Add(e) succeeds, any
further sequence of non-reset operations (any number of Add or TestAndAdd
calls on arbitrary elements, including ones that append new filters) leaves
Test(e) = true — no false negatives, given the partitioned filters' contract. -/
theorem scalable_no_false_negatives (s s1 s2 : ScalableBloomFilter) (e : List Nat)
    (ops : List Op) (hops : ∀ op ∈ ops, op ≠ Op.reset)
    (hadd : s.Add e = some s1) (hexec : execOps s1 ops = some s2) :
    s2.Test e = true :=
  test_preserved_execOps ops s1 s2 e hops hexec (test_add_self s s1 e hadd)

/-- C1 witness: a concrete run — add [1], then add [2] (which appends a second
filter), testAndAdd [3] and test [9]; [1] still tests positive. -/
theorem scalable_no_false_negatives_witness : sExB.Test [1] = true :=
  scalable_no_false_negatives sEx sExA sExB [1]
    [Op.add [2], Op.testAndAdd [3], Op.test [9]] (by decide) (by decide) (by decide)

/-- C2: in every reachable state of a series built with rate fp and ratio r,
the i-th filter (0-indexed by append order) carries target rate `fp * r ^ i`
(so the initial filter carries exactly fp), and for 0 < fp, 0 < r < 1 the
target rates are strictly decreasing in the append order. -/
theorem scalable_geometric_target_rates (hint : Nat) (fp r : ℚ) (s : ScalableBloomFilter)
    (hreach : ReachableFrom hint fp r s) (hfp : 0 < fp) (hr0 : 0 < r) (hr1 : r < 1) :
    (∀ i f, s.filters[i]? = some f → f.fpRate = fp * r ^ i) ∧
    (∀ i j : Nat, i < j → fp * r ^ j < fp * r ^ i) := by
  refine ⟨(reachable_inv hint fp r s hreach).rates, fun i j hij => ?_⟩
  exact mul_lt_mul_of_pos_left (pow_lt_pow_right_of_lt_one₀ hr0 hr1 hij) hfp

/-- C2 witness: after two insertions into the hint-1 series the second filter
carries rate fp * r ^ 1, strictly below the first filter's fp * r ^ 0. -/
theorem scalable_geometric_target_rates_witness :
    (sEx2.filters.getLastD default).fpRate = mkRat 1 100 * mkRat 4 5 ^ 1 ∧
    mkRat 1 100 * mkRat 4 5 ^ 1 < mkRat 1 100 * mkRat 4 5 ^ 0 :=
  ⟨(scalable_geometric_target_rates 1 (mkRat 1 100) (mkRat 4 5) sEx2
      ⟨[Op.add [1], Op.add [2]], by decide⟩ (by decide) (by decide) (by decide)).1
      1 (sEx2.filters.getLastD default) (by decide),
   (scalable_geometric_target_rates 1 (mkRat 1 100) (mkRat 4 5) sEx2
      ⟨[Op.add [1], Op.add [2]], by decide⟩ (by decide) (by decide) (by decide)).2
      0 1 (by decide)⟩

/-- C3 counterexample: with size hint 0 and rate and ratio 2 — all invalid per
the spec's constraints — NewScalableBloomFilter does not fail: it returns an
ordinary series with one filter carrying the malformed parameters. -/
theorem scalable_construction_validation_cex :
    validParams 0 2 2 = false ∧
    (NewScalableBloomFilter 0 2 2).filters.length = 1 ∧
    (NewScalableBloomFilter 0 2 2).fp = 2 ∧
    (NewScalableBloomFilter 0 2 2).r = 2 ∧
    (NewScalableBloomFilter 0 2 2).hint = 0 := by
  decide

/-- C3 amended: construction performs no validation at all — for every input,
valid or not, NewScalableBloomFilter returns a series with exactly one filter
and the given parameters stored unchanged; no configuration error exists. -/
theorem scalable_construction_total (hint : Nat) (fp r : ℚ) :
    (NewScalableBloomFilter hint fp r).filters.length = 1 ∧
    (NewScalableBloomFilter hint fp r).fp = fp ∧
    (NewScalableBloomFilter hint fp r).r = r ∧
    (NewScalableBloomFilter hint fp r).hint = hint ∧
    (NewScalableBloomFilter hint fp r).p = fillRatio := by
  simp [NewScalableBloomFilter, ScalableBloomFilter.addFilter]

/-- C4: on a state whose filters are xs ++ [x] (positive size hint), if x has
reached the fill threshold then Add appends exactly one fresh filter, inserts
the element into it, and strictly increases Capacity; if x is below the
threshold, Add inserts into x, appends nothing, and keeps Capacity. -/
theorem scalable_add_growth_trigger (s : ScalableBloomFilter)
    (xs : List PartitionedBloomFilter) (x : PartitionedBloomFilter) (d : List Nat)
    (hfil : s.filters = xs ++ [x]) (hhint : 0 < s.hint) :
    (x.EstimatedFillRatio ≥ s.p →
      s.Add d = some { s with filters :=
        (xs ++ [x]) ++ [(NewPartitionedBloomFilter s.hint (qmul s.fp (s.r ^ (xs ++ [x]).length))).Add d] } ∧
      ((xs ++ [x]) ++ [(NewPartitionedBloomFilter s.hint (qmul s.fp (s.r ^ (xs ++ [x]).length))).Add d]).length
        = s.filters.length + 1 ∧
      s.Capacity < ({ s with filters :=
        (xs ++ [x]) ++ [(NewPartitionedBloomFilter s.hint (qmul s.fp (s.r ^ (xs ++ [x]).length))).Add d] } : ScalableBloomFilter).Capacity) ∧
    (¬ x.EstimatedFillRatio ≥ s.p →
      s.Add d = some { s with filters := xs ++ [x.Add d] } ∧
      (xs ++ [x.Add d]).length = s.filters.length ∧
      ({ s with filters := xs ++ [x.Add d] } : ScalableBloomFilter).Capacity = s.Capacity) := by
  constructor
  · intro hge
    refine ⟨add_eq_grow s xs x d hfil hge, by simp [hfil], ?_⟩
    rw [capacity_eq_sum, capacity_eq_sum]
    simp only [hfil, List.map_append, List.sum_append, List.map_cons, List.map_nil,
      List.sum_cons, List.sum_nil]
    have hcap : (PartitionedBloomFilter.Add
        (NewPartitionedBloomFilter s.hint (qmul s.fp (s.r ^ (xs ++ [x]).length))) d).Capacity
        = s.hint := by
      simp [PartitionedBloomFilter.Add, NewPartitionedBloomFilter, PartitionedBloomFilter.Capacity]
    omega
  · intro hge
    refine ⟨add_eq_nogrow s xs x d hfil hge, by simp [hfil], ?_⟩
    rw [capacity_eq_sum, capacity_eq_sum]
    have hcap : (x.Add d).Capacity = x.Capacity := (pbf_add_frame x d).2.2
    simp only [hfil, List.map_append, List.map_cons, List.map_nil, List.sum_append,
      List.sum_cons, List.sum_nil, hcap]

/-- C4 witness: the hint-1 series after one insertion has its only filter at
the threshold, so the next Add appends a second filter, inserts [7] into it,
and strictly increases the capacity. -/
theorem scalable_add_growth_trigger_witness :
    sExA.Add [7] = some { sExA with filters :=
      ([] ++ [xExA]) ++ [(NewPartitionedBloomFilter sExA.hint (qmul sExA.fp (sExA.r ^ (([] : List PartitionedBloomFilter) ++ [xExA]).length))).Add [7]] } ∧
    ((([] : List PartitionedBloomFilter) ++ [xExA]) ++ [(NewPartitionedBloomFilter sExA.hint (qmul sExA.fp (sExA.r ^ (([] : List PartitionedBloomFilter) ++ [xExA]).length))).Add [7]]).length
      = sExA.filters.length + 1 ∧
    sExA.Capacity < ({ sExA with filters :=
      ([] ++ [xExA]) ++ [(NewPartitionedBloomFilter sExA.hint (qmul sExA.fp (sExA.r ^ (([] : List PartitionedBloomFilter) ++ [xExA]).length))).Add [7]] } : ScalableBloomFilter).Capacity :=
  (scalable_add_growth_trigger sExA [] xExA [7] (by decide) (by decide)).1 (by decide)

/-- C5: TestAndAdd returns exactly the pre-add Test result paired with exactly
the state Add produces — it is observably Test followed by Add. -/
theorem scalable_testAndAdd_equiv (s : ScalableBloomFilter) (d : List Nat) (b : Bool)
    (s2 : ScalableBloomFilter) :
    s.TestAndAdd d = some (b, s2) ↔ (b = s.Test d ∧ s.Add d = some s2) := by
  cases h : s.Add d with
  | none =>
    have hta : s.TestAndAdd d = none := by simp [ScalableBloomFilter.TestAndAdd, h]
    rw [hta]
    simp
  | some s3 =>
    have hta : s.TestAndAdd d = some (s.Test d, s3) := by
      simp [ScalableBloomFilter.TestAndAdd, h]
    rw [hta]
    constructor
    · intro he
      have hp : (s.Test d, s3) = (b, s2) := Option.some.inj he
      have hb : s.Test d = b := congrArg Prod.fst hp
      have hs : s3 = s2 := congrArg Prod.snd hp
      exact ⟨hb.symm, by rw [hs]⟩
    · rintro ⟨hb, hs⟩
      have hs2 : s3 = s2 := Option.some.inj hs
      rw [hb, hs2]

/-- C6: Test returns true exactly when some filter in the sequence reports
membership, false exactly when all report non-membership, and it does not
change the series state. -/
theorem scalable_test_any_filter (s : ScalableBloomFilter) (d : List Nat) :
    (s.Test d = true ↔ ∃ f ∈ s.filters, f.Test d = true) ∧
    (s.Test d = false ↔ ∀ f ∈ s.filters, f.Test d = false) ∧
    execOp s (Op.test d) = some s := by
  refine ⟨test_iff_exists s d, ?_, rfl⟩
  simp [ScalableBloomFilter.Test, List.any_eq_false]

/-- C7: after Reset, every reachable series holds exactly one fresh filter
built from the original size hint and the i = 0 rate fp * r ^ 0, its capacity
equals a freshly constructed series' capacity, and every element (in
particular every previously added one) tests negative. -/
theorem scalable_reset_restores_initial (hint : Nat) (fp r : ℚ) (s : ScalableBloomFilter)
    (hreach : ReachableFrom hint fp r s) :
    s.Reset.filters = [NewPartitionedBloomFilter hint (fp * r ^ 0)] ∧
    s.Reset.Capacity = (NewScalableBloomFilter hint fp r).Capacity ∧
    (∀ e, s.Reset.Test e = false) := by
  have hinv := reachable_inv hint fp r s hreach
  refine ⟨?_, ?_, ?_⟩
  · simp [ScalableBloomFilter.Reset, ScalableBloomFilter.addFilter, hinv.hint_eq,
      hinv.fp_eq, hinv.r_eq, qmul_eq_mul]
  · rw [capacity_eq_sum, capacity_eq_sum]
    simp [ScalableBloomFilter.Reset, ScalableBloomFilter.addFilter, NewScalableBloomFilter,
      NewPartitionedBloomFilter, PartitionedBloomFilter.Capacity, hinv.hint_eq]
  · intro e
    simp [ScalableBloomFilter.Reset, ScalableBloomFilter.addFilter, ScalableBloomFilter.Test,
      NewPartitionedBloomFilter, PartitionedBloomFilter.Test]

/-- C7 witness: the series that had [1] added tests positive for it, and after
Reset tests negative for it. -/
theorem scalable_reset_restores_initial_witness :
    sExA.Test [1] = true ∧ sExA.Reset.Test [1] = false :=
  ⟨by decide,
   (scalable_reset_restores_initial 1 (mkRat 1 100) (mkRat 4 5) sExA
      ⟨[Op.add [1]], by decide⟩).2.2 [1]⟩

/-- C8: every reachable state has a nonempty filter list, so K's index-0
access succeeds, FillRatio's divisor (the filter count) is nonzero, and Add's
last-index access succeeds for every element. -/
theorem scalable_filters_never_empty (hint : Nat) (fp r : ℚ) (s : ScalableBloomFilter)
    (h : ReachableFrom hint fp r s) :
    s.filters ≠ [] ∧ 0 < s.filters.length ∧ s.K.isSome = true ∧
    (∀ d, (s.Add d).isSome = true) := by
  have hinv := reachable_inv hint fp r s h
  refine ⟨hinv.ne, List.length_pos.mpr hinv.ne, ?_, ?_⟩
  · obtain ⟨a, t, hcons⟩ := List.exists_cons_of_ne_nil hinv.ne
    simp [ScalableBloomFilter.K, hcons]
  · intro d
    obtain ⟨xs, x, hfil⟩ := exists_concat_of_ne_nil s.filters hinv.ne
    by_cases hge : x.EstimatedFillRatio ≥ s.p
    · rw [add_eq_grow s xs x d hfil hge]
      rfl
    · rw [add_eq_nogrow s xs x d hfil hge]
      rfl

/-- C8 witness: the two-filter reachable state is nonempty and accepts a
further Add. -/
theorem scalable_filters_never_empty_witness :
    sEx2.filters ≠ [] ∧ (sEx2.Add [0]).isSome = true :=
  ⟨(scalable_filters_never_empty 1 (mkRat 1 100) (mkRat 4 5) sEx2
      ⟨[Op.add [1], Op.add [2]], by decide⟩).1,
   (scalable_filters_never_empty 1 (mkRat 1 100) (mkRat 4 5) sEx2
      ⟨[Op.add [1], Op.add [2]], by decide⟩).2.2.2 [0]⟩

/-- C9: FillRatio is the unweighted arithmetic mean of the filters' own fill
ratios — their sum divided by the filter count, with no capacity weighting. -/
theorem scalable_fillRatio_unweighted_mean (s : ScalableBloomFilter)
    (h : s.filters ≠ []) :
    s.FillRatio = (s.filters.map PartitionedBloomFilter.FillRatio).sum
      / (s.filters.length : ℚ) := by
  rw [ScalableBloomFilter.FillRatio, foldl_fillRatio_eq, zero_add]

/-- C9 witness: the mean formula instantiated on the concrete fresh series. -/
theorem scalable_fillRatio_unweighted_mean_witness :
    sEx.FillRatio = (sEx.filters.map PartitionedBloomFilter.FillRatio).sum
      / (sEx.filters.length : ℚ) :=
  scalable_fillRatio_unweighted_mean sEx (by decide)

/-- C10: construction stores the caller's parameters and fixes the fill
threshold to the package constant; Add, TestAndAdd and Reset never change the
tightening ratio, target rate, fill threshold or size hint; and Reset rebuilds
the filter list from exactly the original hint and rate (Test is a pure
function of the state in this embedding, so it changes nothing). -/
theorem scalable_config_frame :
    (∀ (hint : Nat) (fp r : ℚ), (NewScalableBloomFilter hint fp r).r = r ∧
      (NewScalableBloomFilter hint fp r).fp = fp ∧
      (NewScalableBloomFilter hint fp r).hint = hint ∧
      (NewScalableBloomFilter hint fp r).p = fillRatio) ∧
    (∀ (s : ScalableBloomFilter) (d : List Nat) (s2 : ScalableBloomFilter),
      s.Add d = some s2 → s2.r = s.r ∧ s2.fp = s.fp ∧ s2.p = s.p ∧ s2.hint = s.hint) ∧
    (∀ (s : ScalableBloomFilter) (d : List Nat) (b : Bool) (s2 : ScalableBloomFilter),
      s.TestAndAdd d = some (b, s2) →
        s2.r = s.r ∧ s2.fp = s.fp ∧ s2.p = s.p ∧ s2.hint = s.hint) ∧
    (∀ s : ScalableBloomFilter, s.Reset.r = s.r ∧ s.Reset.fp = s.fp ∧ s.Reset.p = s.p ∧
      s.Reset.hint = s.hint ∧
      s.Reset.filters = [NewPartitionedBloomFilter s.hint (qmul s.fp (s.r ^ 0))]) := by
  refine ⟨?_, ?_, ?_, ?_⟩
  · intro hint fp r
    simp [NewScalableBloomFilter, ScalableBloomFilter.addFilter]
  · intro s d s2 h
    exact add_frame s s2 d h
  · intro s d b s2 h
    have h2 : s.Add d = some s2 := by
      cases hA : s.Add d with
      | none =>
        have hta : s.TestAndAdd d = none := by simp [ScalableBloomFilter.TestAndAdd, hA]
        rw [hta] at h
        exact absurd h (by simp)
      | some s3 =>
        have hta : s.TestAndAdd d = some (s.Test d, s3) := by
          simp [ScalableBloomFilter.TestAndAdd, hA]
        rw [hta] at h
        have hp : (s.Test d, s3) = (b, s2) := Option.some.inj h
        have hs : s3 = s2 := congrArg Prod.snd hp
        rw [← hs]
    exact add_frame s s2 d h2
  · intro s
    exact ⟨rfl, rfl, rfl, rfl, rfl⟩

/-- C10 witness: the concrete Add step leaves all four scalar fields of the
hint-1 series unchanged. -/
theorem scalable_config_frame_witness :
    sExA.r = sEx.r ∧ sExA.fp = sEx.fp ∧ sExA.p = sEx.p ∧ sExA.hint = sEx.hint :=
  scalable_config_frame.2.1 sEx [1] sExA (by decide)
